import Mathlib

/-!
Verification of the MCQ-generator backend (`backend/main.py`).

Text is modelled as `List Char`.  Python's `str.split()` whitespace set is
modelled by the six ASCII whitespace characters (unicode whitespace beyond
ASCII is outside the modelled character set).
-/

set_option maxHeartbeats 1000000

namespace MCQGen

/-- ASCII whitespace, the characters Python's `str.split()` and the regex
class `\s` treat as separators (restricted to ASCII). -/
def isWS (c : Char) : Bool :=
  c = ' ' || c = '\t' || c = '\n' || c = '\r' || c = '\x0b' || c = '\x0c'

/-- Accumulator pass behind `splitWords`: `cur` is the word being read. -/
def splitWordsAux : List Char → List Char → List (List Char)
  | [], cur => if cur = [] then [] else [cur]
  | c :: cs, cur =>
    if isWS c then
      if cur = [] then splitWordsAux cs []
      else cur :: splitWordsAux cs []
    else splitWordsAux cs (cur ++ [c])

/-- Python `text.split()`: the whitespace-separated words of `text`, with
empty words dropped. -/
def splitWords (s : List Char) : List (List Char) :=
  splitWordsAux s []

/-- Python `" ".join(parts)`. -/
def joinWords : List (List Char) → List Char
  | [] => []
  | [w] => w
  | w :: ws => w ++ ' ' :: joinWords ws

/-- The loop of `chunk_text`: walk the words, flushing the current chunk
whenever adding the next word would push the running size total
(word length + 1 per word) over `max_size * 4`.  Returns the chunks as
word groups; `chunk_text` joins each group with spaces. -/
def chunkWords (maxSize : Nat) : List (List Char) → List (List Char) → Nat → List (List (List Char))
  | [], cur, _ => if cur = [] then [] else [cur]
  | w :: ws, cur, size =>
    let wsz := w.length + 1
    if maxSize * 4 < size + wsz then
      if cur = [] then chunkWords maxSize ws [w] (size + wsz)
      else cur :: chunkWords maxSize ws [w] wsz
    else chunkWords maxSize ws (cur ++ [w]) (size + wsz)

/-- `chunk_text(text, max_size)`: split `text` into word-boundary chunks of
roughly `max_size * 4` characters; if no chunk was produced (no words in the
input) return the single-element list holding the original text. -/
def chunk_text (text : List Char) (maxSize : Nat) : List (List Char) :=
  let chunks := (chunkWords maxSize (splitWords text) [] 0).map joinWords
  if chunks = [] then [text] else chunks

/-- `MAX_CHUNK_SIZE` from the configuration section. -/
def MAX_CHUNK_SIZE : Nat := 2500

/-! ### JSON values and `json.loads`

Python decodes a JSON text into dicts / lists / strs / ints / floats /
bools / None.  Floats carry their source literal here (no claim inspects a
float's numeric value).  Objects keep their fields in source order;
`jlookup` resolves duplicate keys the way a Python dict built by repeated
insertion does (the last occurrence wins). -/

inductive JValue where
  | jnull
  | jbool (b : Bool)
  | jint (n : Int)
  | jfloat (raw : List Char)
  | jstr (s : List Char)
  | jarr (elems : List JValue)
  | jobj (fields : List (List Char × JValue))

/-- Key lookup in a decoded JSON object, matching Python dict semantics
(`json.loads` keeps the last of duplicate keys). -/
def jlookup (fields : List (List Char × JValue)) (k : List Char) : Option JValue :=
  List.lookup k fields.reverse

/-- JSON whitespace (the only characters `json.loads` skips between tokens). -/
def isJsonWs (c : Char) : Bool :=
  c = ' ' || c = '\t' || c = '\n' || c = '\r'

/-- Skip JSON whitespace. -/
def skipWs (s : List Char) : List Char :=
  s.dropWhile isJsonWs

/-- Value of a single hex digit, by code point (48–57 are the digits,
97–102 lower-case a–f, 65–70 upper-case A–F). -/
def hexDigit (c : Char) : Option Nat :=
  let n := c.toNat
  if 48 ≤ n ∧ n ≤ 57 then some (n - 48)
  else if 97 ≤ n ∧ n ≤ 102 then some (n - 87)
  else if 65 ≤ n ∧ n ≤ 70 then some (n - 55)
  else none

/-- Four hex digits of a `\uXXXX` escape. -/
def parseHex4 : List Char → Option (Nat × List Char)
  | a :: b :: c :: d :: r =>
    match hexDigit a, hexDigit b, hexDigit c, hexDigit d with
    | some x, some y, some z, some w => some (((x * 16 + y) * 16 + z) * 16 + w, r)
    | _, _, _, _ => none
  | _ => none

/-- The single-character JSON string escapes. -/
def escChar : Char → Option Char
  | '"' => some '"'
  | '\\' => some '\\'
  | '/' => some '/'
  | 'b' => some '\x08'
  | 'f' => some '\x0c'
  | 'n' => some '\n'
  | 'r' => some '\r'
  | 't' => some '\t'
  | _ => none

/-- Body of a JSON string, after the opening quote.  Raw control characters
are rejected (Python's strict mode); surrogate pairs in `\u` escapes are
combined; a lone surrogate is mapped through `Char.ofNat` (Lean has no
surrogate code points, so it degrades to `'\x00'` — no claim depends on it). -/
def parseStrBody : Nat → List Char → Option (List Char × List Char)
  | 0, _ => none
  | fuel + 1, s =>
    match s with
    | [] => none
    | '"' :: r => some ([], r)
    | '\\' :: 'u' :: r =>
      match parseHex4 r with
      | none => none
      | some (n, r2) =>
        if 0xD800 ≤ n && n ≤ 0xDBFF then
          match r2 with
          | '\\' :: 'u' :: r3 =>
            match parseHex4 r3 with
            | some (n2, r4) =>
              if 0xDC00 ≤ n2 && n2 ≤ 0xDFFF then
                (parseStrBody fuel r4).map
                  (fun p => (Char.ofNat (0x10000 + (n - 0xD800) * 0x400 + (n2 - 0xDC00)) :: p.1, p.2))
              else (parseStrBody fuel r2).map (fun p => (Char.ofNat n :: p.1, p.2))
            | none => (parseStrBody fuel r2).map (fun p => (Char.ofNat n :: p.1, p.2))
          | _ => (parseStrBody fuel r2).map (fun p => (Char.ofNat n :: p.1, p.2))
        else (parseStrBody fuel r2).map (fun p => (Char.ofNat n :: p.1, p.2))
    | '\\' :: e :: r =>
      match escChar e with
      | some c => (parseStrBody fuel r).map (fun p => (c :: p.1, p.2))
      | none => none
    | c :: r =>
      if c.toNat < 0x20 then none
      else (parseStrBody fuel r).map (fun p => (c :: p.1, p.2))

/-- Decimal value of a digit list (code point 48 is the digit zero). -/
def digitsVal (ds : List Char) : Nat :=
  ds.foldl (fun a c => 10 * a + (c.toNat - 48)) 0

/-- The JSON number token, Python's
`(-?(?:0|[1-9]\d*))(\.\d+)?([eE][-+]?\d+)?` matched greedily at the front of
`s`.  A plain integer decodes to `jint`; a fraction or exponent makes it a
float (carried as its raw literal). -/
def parseNumber (s : List Char) : Option (JValue × List Char) :=
  let negPair : Bool × List Char :=
    match s with
    | '-' :: t => (true, t)
    | _ => (false, s)
  let neg := negPair.1
  let s1 := negPair.2
  let intPart : Option (List Char × List Char) :=
    match s1 with
    | '0' :: t => some (['0'], t)
    | c :: t =>
      if '1' ≤ c && c ≤ '9' then
        some (c :: t.takeWhile Char.isDigit, t.drop (t.takeWhile Char.isDigit).length)
      else none
    | [] => none
  match intPart with
  | none => none
  | some (ip, r0) =>
    let fracPair : List Char × List Char :=
      match r0 with
      | '.' :: u =>
        let fs := u.takeWhile Char.isDigit
        if fs = [] then ([], r0) else ('.' :: fs, u.drop fs.length)
      | _ => ([], r0)
    let fp := fracPair.1
    let r1 := fracPair.2
    let expPair : List Char × List Char :=
      match r1 with
      | e :: u =>
        if e = 'e' || e = 'E' then
          let su : List Char × List Char :=
            match u with
            | '+' :: v => (['+'], v)
            | '-' :: v => (['-'], v)
            | _ => ([], u)
          let ds := su.2.takeWhile Char.isDigit
          if ds = [] then ([], r1) else (e :: su.1 ++ ds, su.2.drop ds.length)
        else ([], r1)
      | [] => ([], r1)
    let ep := expPair.1
    let r2 := expPair.2
    if fp = [] && ep = [] then
      some (.jint ((if neg then -1 else 1) * (digitsVal ip : Int)), r2)
    else
      some (.jfloat ((if neg then ['-'] else []) ++ ip ++ fp ++ ep), r2)

mutual

/-- One JSON value at the front of `s` (leading whitespace skipped), in the
order Python's scanner tries alternatives: string, object, array, the
literals, the `NaN` / `Infinity` constants, then a number. -/
def parseVal : Nat → List Char → Option (JValue × List Char)
  | 0, _ => none
  | fuel + 1, s =>
    match skipWs s with
    | [] => none
    | c :: rest =>
      if c = '"' then
        (parseStrBody (rest.length + 1) rest).map (fun p => (.jstr p.1, p.2))
      else if c = '{' then
        match skipWs rest with
        | '}' :: r => some (.jobj [], r)
        | _ => (parseMembers fuel rest).map (fun p => (.jobj p.1, p.2))
      else if c = '[' then
        match skipWs rest with
        | ']' :: r => some (.jarr [], r)
        | _ => (parseElems fuel rest).map (fun p => (.jarr p.1, p.2))
      else if (c :: rest).take 4 = "null".toList then some (.jnull, (c :: rest).drop 4)
      else if (c :: rest).take 4 = "true".toList then some (.jbool true, (c :: rest).drop 4)
      else if (c :: rest).take 5 = "false".toList then some (.jbool false, (c :: rest).drop 5)
      else if (c :: rest).take 3 = "NaN".toList then some (.jfloat "NaN".toList, (c :: rest).drop 3)
      else if (c :: rest).take 8 = "Infinity".toList then
        some (.jfloat "Infinity".toList, (c :: rest).drop 8)
      else if (c :: rest).take 9 = "-Infinity".toList then
        some (.jfloat "-Infinity".toList, (c :: rest).drop 9)
      else parseNumber (c :: rest)

/-- The elements of a non-empty JSON array, after the opening bracket. -/
def parseElems : Nat → List Char → Option (List JValue × List Char)
  | 0, _ => none
  | fuel + 1, s =>
    match parseVal fuel s with
    | none => none
    | some (v, r) =>
      match skipWs r with
      | ',' :: r2 => (parseElems fuel r2).map (fun p => (v :: p.1, p.2))
      | ']' :: r2 => some ([v], r2)
      | _ => none

/-- The members of a non-empty JSON object, after the opening brace. -/
def parseMembers : Nat → List Char → Option (List (List Char × JValue) × List Char)
  | 0, _ => none
  | fuel + 1, s =>
    match skipWs s with
    | '"' :: r =>
      match parseStrBody (r.length + 1) r with
      | none => none
      | some (k, r1) =>
        match skipWs r1 with
        | ':' :: r2 =>
          match parseVal fuel r2 with
          | none => none
          | some (v, r3) =>
            match skipWs r3 with
            | ',' :: r4 => (parseMembers fuel r4).map (fun p => ((k, v) :: p.1, p.2))
            | '}' :: r4 => some ([(k, v)], r4)
            | _ => none
        | _ => none
    | _ => none

end

/-- `json.loads`: one JSON value covering the whole input up to surrounding
whitespace.  The fuel `2 * length + 2` dominates the recursion depth (every
nesting step consumes at least one input character). -/
def json_loads (s : List Char) : Option JValue :=
  match parseVal (2 * s.length + 2) s with
  | some (v, r) => if skipWs r = [] then some v else none
  | none => none

/-- A whole-input parse that produced a JSON array (`json.loads` succeeding
with `isinstance(data, list)`). -/
def parseArr (s : List Char) : Option (List JValue) :=
  match json_loads s with
  | some (.jarr xs) => some xs
  | _ => none

/-! ### The two `re.search` patterns of `extract_json_from_response`

Pattern 2 of the source is ``` ```(?:json)?\s*(\[.*?\])\s*``` ``` with
`re.DOTALL`; pattern 3 is `\[.*\]` with `re.DOTALL`.  Both are modelled by
direct leftmost-match scans.  For pattern 2 the backtracking of the greedy
`\s*` pieces collapses: the character after a maximal whitespace run is not
itself whitespace, so only the maximal run can be followed by `[` or by a
backtick, and the lazy `.*?` takes the first closing position that works. -/

/-- Does `s` start with three backticks? -/
def hasFence (s : List Char) : Bool :=
  s.take 3 = "```".toList

/-- Lazy scan for the closing `]` of the fenced group: the first position
holding `]` that is followed (after maximal whitespace) by three backticks.
Returns the group content before that `]`. -/
def lazyClose : List Char → Option (List Char)
  | [] => none
  | c :: cs =>
    if c = ']' && hasFence (cs.dropWhile isWS) then some []
    else (lazyClose cs).map (fun t => c :: t)

/-- Tail of the fence pattern from just after ```` ```(?:json)? ````:
maximal whitespace, an opening `[`, the lazily closed content, the `]`.
Returns capture group 1, the bracketed text. -/
def fenceTail (u : List Char) : Option (List Char) :=
  match u.dropWhile isWS with
  | '[' :: w => (lazyClose w).map (fun t => '[' :: (t ++ [']']))
  | _ => none

/-- One attempt of the fence pattern anchored at the current position. -/
def tryFenceAt (s : List Char) : Option (List Char) :=
  if hasFence s then
    let u := s.drop 3
    if u.take 4 = "json".toList then fenceTail (u.drop 4) else fenceTail u
  else none

/-- Leftmost match of the fenced-code-block pattern: group 1 of
`re.search` with pattern 2, or `none` when the pattern does not occur. -/
def findFenced : List Char → Option (List Char)
  | [] => none
  | c :: cs =>
    match tryFenceAt (c :: cs) with
    | some g => some g
    | none => findFenced cs

/-- The suffix of `s` starting at the first occurrence of `c`. -/
def afterFirst (c : Char) : List Char → Option (List Char)
  | [] => none
  | x :: xs => if x = c then some (x :: xs) else afterFirst c xs

/-- The prefix of `s` ending at the last occurrence of `c` (inclusive). -/
def upToLast (c : Char) : List Char → Option (List Char)
  | [] => none
  | x :: xs =>
    match upToLast c xs with
    | some t => some (x :: t)
    | none => if x = c then some [x] else none

/-- Leftmost-greedy match of `\[.*\]` under DOTALL: from the first `[` to
the last `]` after it (group 0 of `re.search` with pattern 3). -/
def findBracket (s : List Char) : Option (List Char) :=
  (afterFirst '[' s).bind (fun t =>
    match t with
    | x :: xs => (upToLast ']' xs).map (fun u => x :: u)
    | [] => none)

/-- `extract_json_from_response`: direct parse, then the fenced block, then
the first bracket-delimited substring; each strategy is accepted when its
text parses as a JSON array, and everything failing yields `[]`.  (A group
produced by the two searches starts with `[` and ends with `]`, so a
successful parse of it is necessarily an array.) -/
def extract_json_from_response (s : List Char) : List JValue :=
  match parseArr s with
  | some xs => xs
  | none =>
    match (findFenced s).bind parseArr with
    | some xs => xs
    | none =>
      match (findBracket s).bind parseArr with
      | some xs => xs
      | none => []

/-- All contiguous substrings of `s` (every prefix of every suffix). -/
def allInfixes (s : List Char) : List (List Char) :=
  s.tails.flatMap List.inits

/-! ### `validate_mcq`

Python's `isinstance(x, int)` holds for `bool` as well (`bool` is a subtype
of `int`, with `True == 1` and `False == 0`), which `pyIsInt` / `pyIntVal`
capture.  The final `MCQ(...)` construction is modelled as plain record
packaging: the pydantic layer is an external collaborator, and lax pydantic
validation accepts the values `validate_mcq` has already checked (booleans
coerce to the `int` field as 0/1). -/

/-- Python `isinstance(x, int)` on a decoded JSON value. -/
def pyIsInt : JValue → Bool
  | .jint _ => true
  | .jbool _ => true
  | _ => false

/-- The integer a decoded JSON value stands for under Python int semantics
(`True == 1`, `False == 0`); only meaningful when `pyIsInt` holds. -/
def pyIntVal : JValue → Int
  | .jint n => n
  | .jbool b => if b then 1 else 0
  | _ => 0

/-- The canonical validated MCQ record (`class MCQ(BaseModel)`). -/
structure MCQ where
  question : JValue
  options : List JValue
  answer : Int
  explanation : JValue

/-- The `"question"` key. -/
def QUESTION : List Char := "question".toList
/-- The `"options"` key. -/
def OPTIONS : List Char := "options".toList
/-- The `"answer"` key. -/
def ANSWER : List Char := "answer".toList
/-- The `"explanation"` key. -/
def EXPLANATION : List Char := "explanation".toList

/-- `validate_mcq`: require the three keys, `options` a list of exactly 4,
`answer` passing `isinstance(·, int)` with `0 <= answer <= 3`; package the
record with `explanation` defaulting to the empty string.  Any other
candidate shape (including non-dict candidates, whose inspection raises in
Python and is swallowed by the `except`) yields `none`. -/
def validate_mcq (v : JValue) : Option MCQ :=
  match v with
  | .jobj d =>
    match jlookup d QUESTION, jlookup d OPTIONS, jlookup d ANSWER with
    | some q, some opts, some ans =>
      match opts with
      | .jarr os =>
        if os.length = 4 then
          if pyIsInt ans && decide (0 ≤ pyIntVal ans) && decide (pyIntVal ans ≤ 3) then
            some ⟨q, os, pyIntVal ans, (jlookup d EXPLANATION).getD (.jstr [])⟩
          else none
        else none
      | _ => none
    | _, _, _ => none
  | _ => none

/-! ### The generation client

The HTTP transport is the external collaborator: an abstract transport
outcome per call.  `call_ollama_generate` maps it exactly as the source
does.  Note that the source raises the non-200 `HTTPException` *inside* the
`try`, so it is caught by the final `except Exception` and re-wrapped as a
500 "Ollama error: ..."; the connection and timeout handlers raise from
their `except` clauses and propagate unwrapped. -/

/-- Outcome of one POST to the generation service. -/
inductive TransportResult where
  | success (status : Nat) (body : List Char)
  | connectionError
  | timeoutError
  | otherError (msg : List Char)

/-- FastAPI `HTTPException`, the error currency of the backend. -/
structure HTTPError where
  status : Nat
  detail : List Char

/-- Detail text of the 503 connection failure. -/
def MSG_CONN : List Char :=
  "Cannot connect to Ollama. Make sure Ollama is running (ollama serve)".toList

/-- Detail text of the 504 timeout failure. -/
def MSG_TIMEOUT : List Char :=
  "Ollama request timed out. Try with shorter text or fewer questions.".toList

/-- Prefix of the generic 500 detail (`f"Ollama error: {str(e)}"`; the
embedded exception text is kept only for the wrapped non-200 case). -/
def MSG_OLLAMA_ERR : List Char := "Ollama error: ".toList

/-- `call_ollama_generate` without the HTTP plumbing: map the transport
outcome to the generated text or to the `HTTPException` the source raises.
On a 200 response the body is decoded as JSON and the `response` field is
read with default `""`; a body that is not a JSON object makes `.get`
raise, landing in the generic 500 handler (its f-string rendering of the
exception is not modelled).  A non-string `response` field is returned
verbatim by Python and only explodes later; it is modelled as `""`, a case
no claim exercises. -/
def call_ollama_generate (t : TransportResult) : Except HTTPError (List Char) :=
  match t with
  | .connectionError => .error ⟨503, MSG_CONN⟩
  | .timeoutError => .error ⟨504, MSG_TIMEOUT⟩
  | .otherError m => .error ⟨500, MSG_OLLAMA_ERR ++ m⟩
  | .success status body =>
    if status ≠ 200 then
      .error ⟨500, MSG_OLLAMA_ERR ++ ("500: Ollama API error: ".toList
        ++ (Nat.repr status).toList ++ " - ".toList ++ body)⟩
    else
      match json_loads body with
      | some (.jobj d) =>
        match jlookup d "response".toList with
        | some (.jstr s) => .ok s
        | some _ => .ok []
        | none => .ok []
      | some _ => .error ⟨500, MSG_OLLAMA_ERR⟩
      | none => .error ⟨500, MSG_OLLAMA_ERR⟩

/-! ### The orchestrator `generate_mcqs_from_text`

`OLLAMA_PROMPT.format(n_questions=…, difficulty=…, text=…)` renders the
template with its five placeholder sites; the constants below are the six
literal pieces between them (`\x7b`/`\x7d` are the braces produced from the
template's `{{`/`}}`).  Each client call is one consultation of an abstract
oracle (call index and prompt to transport outcome), and the loop keeps a
trace of issued calls so the theorems can speak about them. -/

/-- Template text before the first `{n_questions}`. -/
def PROMPT_P1 : List Char :=
  ("You are an expert educator creating multiple-choice questions.\n\nGiven the following text, generate ").toList

/-- Template text between `{n_questions}` and `{difficulty}`. -/
def PROMPT_P2 : List Char := " multiple-choice questions at ".toList

/-- Template text between `{difficulty}` and `{text}`. -/
def PROMPT_P3 : List Char := " difficulty level.\n\nTEXT:\n".toList

/-- Template text between `{text}` and the second `{n_questions}`. -/
def PROMPT_P4 : List Char := "\n\nREQUIREMENTS:\n- Generate exactly ".toList

/-- Template text between the second `{n_questions}` and the second
`{difficulty}`. -/
def PROMPT_P5 : List Char := " questions\n- Difficulty: ".toList

/-- Template text after the second `{difficulty}`. -/
def PROMPT_P6 : List Char :=
  ("\n- Each question must have exactly 4 options (A, B, C, D)\n- One option must be correct\n- Include a brief explanation for the correct answer\n\nOUTPUT FORMAT (CRITICAL - MUST BE VALID JSON):\nReturn ONLY a JSON array with this exact structure, no other text:\n[\n  \x7b\n    \"question\": \"Question text here?\",\n    \"options\": [\"Option A\", \"Option B\", \"Option C\", \"Option D\"],\n    \"answer\": 0,\n    \"explanation\": \"Brief explanation of why this is correct\"\n  \x7d\n]\n\nThe \"answer\" field must be the zero-based index (0-3) of the correct option.\nReturn ONLY the JSON array, no markdown, no code blocks, no additional text.").toList

/-- The instruction appended for the single retry. -/
def RETRY_SUFFIX : List Char :=
  "\n\nIMPORTANT: Return ONLY valid JSON array, nothing else.".toList

/-- `OLLAMA_PROMPT.format(...)`. -/
def buildPrompt (nq : Nat) (difficulty text : List Char) : List Char :=
  PROMPT_P1 ++ (Nat.repr nq).toList ++ PROMPT_P2 ++ difficulty ++ PROMPT_P3 ++ text
    ++ PROMPT_P4 ++ (Nat.repr nq).toList ++ PROMPT_P5 ++ difficulty ++ PROMPT_P6

/-- One generation call as recorded in the trace. -/
structure CallRec where
  chunkIdx : Nat
  isRetry : Bool
  prompt : List Char

/-- The external generation service: transport outcome of the call with a
given index and prompt. -/
def Oracle : Type := Nat → List Char → TransportResult

/-- The inner `for mcq_dict in mcq_dicts` loop: validate each candidate and
append it while the accumulated count is below the requested total. -/
def procRecords (ds : List JValue) (n : Nat) (acc : List MCQ) : List MCQ :=
  match ds with
  | [] => acc
  | d :: rest =>
    match validate_mcq d with
    | some m => if acc.length < n then procRecords rest n (acc ++ [m]) else procRecords rest n acc
    | none => procRecords rest n acc

/-- The chunk loop of `generate_mcqs_from_text`.  `cidx` is the enumeration
index, `k` the index of the next client call, `qpc` the per-chunk question
target, `acc` the accumulated MCQs and `trace` the calls issued so far.
A failing client call terminates the whole computation with its error. -/
def genLoop (oracle : Oracle) (n : Nat) (difficulty : List Char) :
    List (List Char) → Nat → Nat → Nat → List MCQ → List CallRec →
    Except HTTPError (List MCQ) × List CallRec
  | [], _, _, _, acc, trace => (.ok acc, trace)
  | chunk :: rest, cidx, k, qpc, acc, trace =>
    if n ≤ acc.length then (.ok acc, trace)
    else
      let cq := min (n - acc.length) qpc
      let prompt := buildPrompt cq difficulty (chunk.take 3000)
      match call_ollama_generate (oracle k prompt) with
      | .error e => (.error e, trace ++ [⟨cidx, false, prompt⟩])
      | .ok resp =>
        let acc1 := procRecords (extract_json_from_response resp) n acc
        let trace1 := trace ++ [⟨cidx, false, prompt⟩]
        if acc1.length = 0 ∧ cidx = 0 then
          let rp := prompt ++ RETRY_SUFFIX
          match call_ollama_generate (oracle (k + 1) rp) with
          | .error e => (.error e, trace1 ++ [⟨cidx, true, rp⟩])
          | .ok resp2 =>
            let acc2 := procRecords (extract_json_from_response resp2) n acc1
            genLoop oracle n difficulty rest (cidx + 1) (k + 2) qpc acc2 (trace1 ++ [⟨cidx, true, rp⟩])
        else genLoop oracle n difficulty rest (cidx + 1) (k + 1) qpc acc1 trace1

/-- `generate_mcqs_from_text(text, n_questions, difficulty)` against an
abstract generation service, also yielding the trace of issued calls. -/
def generate_mcqs_from_text (oracle : Oracle) (text : List Char) (n : Nat)
    (difficulty : List Char) : Except HTTPError (List MCQ) × List CallRec :=
  let chunks := chunk_text text MAX_CHUNK_SIZE
  let qpc := min 5 (max 1 (n / chunks.length))
  genLoop oracle n difficulty chunks 0 0 qpc [] []

/-! ## Lemmas about the chunker -/

/-- Every word emitted by `splitWordsAux` is non-empty and whitespace-free,
provided the accumulator is whitespace-free. -/
theorem splitWordsAux_proper :
    ∀ (s cur : List Char), (∀ c ∈ cur, isWS c = false) →
      ∀ w ∈ splitWordsAux s cur, w ≠ [] ∧ ∀ c ∈ w, isWS c = false := by
  intro s
  induction s with
  | nil =>
    intro cur hcur w hw
    simp only [splitWordsAux] at hw
    by_cases h : cur = []
    · simp [h] at hw
    · simp [h] at hw
      subst hw
      exact ⟨h, hcur⟩
  | cons c cs ih =>
    intro cur hcur w hw
    simp only [splitWordsAux] at hw
    by_cases hws : isWS c = true
    · simp only [hws, if_true] at hw
      by_cases h : cur = []
      · simp only [h, if_true] at hw
        exact ih [] (by simp) w hw
      · simp only [h, if_false] at hw
        rcases List.mem_cons.mp hw with hw | hw
        · subst hw; exact ⟨h, hcur⟩
        · exact ih [] (by simp) w hw
    · simp only [hws, if_false] at hw
      refine ih (cur ++ [c]) ?_ w hw
      intro x hx
      rcases List.mem_append.mp hx with hx | hx
      · exact hcur x hx
      · simp only [List.mem_singleton] at hx
        subst hx
        exact Bool.not_eq_true _ ▸ hws

/-- Every word of `splitWords s` is non-empty and whitespace-free. -/
theorem splitWords_proper (s : List Char) :
    ∀ w ∈ splitWords s, w ≠ [] ∧ ∀ c ∈ w, isWS c = false :=
  splitWordsAux_proper s [] (by simp)

/-- Feeding a whitespace-free word into the splitter just extends the
accumulator. -/
theorem splitWordsAux_word (w : List Char) (hw : ∀ c ∈ w, isWS c = false) :
    ∀ (t cur : List Char), splitWordsAux (w ++ t) cur = splitWordsAux t (cur ++ w) := by
  induction w with
  | nil => intro t cur; simp
  | cons c cs ih =>
    intro t cur
    have hc : isWS c = false := hw c (List.mem_cons_self c cs)
    have hcs : ∀ x ∈ cs, isWS x = false := fun x hx => hw x (List.mem_cons_of_mem c hx)
    simp only [List.cons_append, splitWordsAux, hc, Bool.false_eq_true, if_false,
      List.append_eq]
    rw [ih hcs t (cur ++ [c]), List.append_assoc]
    rfl

/-- Splitting inverts joining on a list of proper words. -/
theorem splitWords_join :
    ∀ ws : List (List Char),
      (∀ w ∈ ws, w ≠ [] ∧ ∀ c ∈ w, isWS c = false) →
      splitWords (joinWords ws) = ws := by
  intro ws
  induction ws with
  | nil => intro _; rfl
  | cons w rest ih =>
    intro h
    have hw := h w (List.mem_cons_self w rest)
    cases rest with
    | nil =>
      show splitWordsAux (joinWords [w]) [] = [w]
      have : joinWords [w] = w ++ [] := by simp [joinWords]
      rw [this, splitWordsAux_word w hw.2]
      simp [splitWordsAux, hw.1]
    | cons w2 rest2 =>
      have hrest : ∀ x ∈ w2 :: rest2, x ≠ [] ∧ ∀ c ∈ x, isWS c = false :=
        fun x hx => h x (List.mem_cons_of_mem w hx)
      show splitWordsAux (joinWords (w :: w2 :: rest2)) [] = w :: w2 :: rest2
      have hj : joinWords (w :: w2 :: rest2) = w ++ ' ' :: joinWords (w2 :: rest2) := rfl
      rw [hj, splitWordsAux_word w hw.2]
      simp only [List.nil_append, splitWordsAux]
      have : isWS ' ' = true := rfl
      rw [if_pos this, if_neg hw.1]
      exact congrArg (w :: ·) (ih hrest)

/-- The word groups produced by the chunk loop flatten back to the
accumulator followed by the remaining words. -/
theorem chunkWords_join (m : Nat) :
    ∀ (ws : List (List Char)) (cur : List (List Char)) (sz : Nat),
      (chunkWords m ws cur sz).flatten = cur ++ ws := by
  intro ws
  induction ws with
  | nil =>
    intro cur sz
    by_cases h : cur = [] <;> simp [chunkWords, h]
  | cons w rest ih =>
    intro cur sz
    simp only [chunkWords]
    by_cases hover : m * 4 < sz + (w.length + 1)
    · rw [if_pos hover]
      by_cases h : cur = []
      · rw [if_pos h, ih, h]
        rfl
      · rw [if_neg h]
        simp [ih]
    · rw [if_neg hover, ih]
      simp

/-- No chunk group is empty. -/
theorem chunkWords_ne_nil (m : Nat) :
    ∀ (ws cur : List (List Char)) (sz : Nat) (g : List (List Char)),
      g ∈ chunkWords m ws cur sz → g ≠ [] := by
  intro ws
  induction ws with
  | nil =>
    intro cur sz g hg
    by_cases h : cur = [] <;> simp [chunkWords, h] at hg
    subst hg; exact h
  | cons w rest ih =>
    intro cur sz g hg
    simp only [chunkWords] at hg
    by_cases hover : m * 4 < sz + (w.length + 1)
    · rw [if_pos hover] at hg
      by_cases h : cur = []
      · rw [if_pos h] at hg
        exact ih _ _ g hg
      · rw [if_neg h] at hg
        rcases List.mem_cons.mp hg with hg | hg
        · subst hg; exact h
        · exact ih _ _ g hg
    · rw [if_neg hover] at hg
      exact ih _ _ g hg

/-- `joinWords` of a cons with a non-empty tail. -/
theorem joinWords_cons (w : List Char) (ws : List (List Char)) (h : ws ≠ []) :
    joinWords (w :: ws) = w ++ ' ' :: joinWords ws := by
  cases ws with
  | nil => exact absurd rfl h
  | cons x xs => rfl

/-- `joinWords` distributes over append of non-empty lists. -/
theorem joinWords_append (a b : List (List Char)) (ha : a ≠ []) (hb : b ≠ []) :
    joinWords (a ++ b) = joinWords a ++ ' ' :: joinWords b := by
  induction a with
  | nil => exact absurd rfl ha
  | cons x xs ih =>
    cases hxs : xs with
    | nil =>
      subst hxs
      simp only [List.singleton_append]
      rw [joinWords_cons x b hb]
      rfl
    | cons y ys =>
      rw [← hxs]
      have hxs' : xs ≠ [] := by rw [hxs]; exact List.cons_ne_nil _ _
      have h1 : (x :: xs) ++ b = x :: (xs ++ b) := rfl
      have h2 : xs ++ b ≠ [] := by
        intro hc
        exact hxs' (List.append_eq_nil.mp hc).1
      rw [h1, joinWords_cons x (xs ++ b) h2, ih hxs', joinWords_cons x xs hxs',
        List.append_assoc]
      rfl

/-- Space-joining the per-group joins equals joining the flattened words,
when every group is non-empty. -/
theorem joinWords_map_join :
    ∀ gs : List (List (List Char)), (∀ g ∈ gs, g ≠ []) →
      joinWords (gs.map joinWords) = joinWords gs.flatten := by
  intro gs
  induction gs with
  | nil => intro _; rfl
  | cons g rest ih =>
    intro h
    have hg : g ≠ [] := h g (List.mem_cons_self g rest)
    have hrest : ∀ x ∈ rest, x ≠ [] := fun x hx => h x (List.mem_cons_of_mem g hx)
    cases hr : rest with
    | nil =>
      subst hr
      simp [joinWords]
    | cons g2 rest2 =>
      rw [← hr]
      have hrne : rest ≠ [] := by rw [hr]; exact List.cons_ne_nil _ _
      have hflat_ne : rest.flatten ≠ [] := by
        rw [hr]
        have hg2 : g2 ≠ [] := hrest g2 (by rw [hr]; exact List.mem_cons_self _ _)
        simp only [List.flatten_cons]
        intro hc
        exact hg2 (List.append_eq_nil.mp hc).1
      have hmap_ne : rest.map joinWords ≠ [] := by
        rw [hr]; simp
      calc joinWords ((g :: rest).map joinWords)
          = joinWords (joinWords g :: rest.map joinWords) := rfl
        _ = joinWords g ++ ' ' :: joinWords (rest.map joinWords) :=
            joinWords_cons _ _ hmap_ne
        _ = joinWords g ++ ' ' :: joinWords rest.flatten := by rw [ih hrest]
        _ = joinWords (g ++ rest.flatten) := (joinWords_append g rest.flatten hg hflat_ne).symm
        _ = joinWords (g :: rest).flatten := by rw [List.flatten_cons]

/-- The running size total the chunk loop maintains for a group: word
length plus one separator per word. -/
def wsize (g : List (List Char)) : Nat :=
  (g.map (fun w => w.length + 1)).sum

/-- Every group the chunk loop emits fits the `maxSize * 4` budget or is a
single word, given the accumulator invariant. -/
theorem chunkWords_size (m : Nat) :
    ∀ (ws cur : List (List Char)) (sz : Nat), sz = wsize cur →
      (cur = [] ∨ wsize cur ≤ m * 4 ∨ cur.length = 1) →
      ∀ g ∈ chunkWords m ws cur sz, wsize g ≤ m * 4 ∨ g.length = 1 := by
  intro ws
  induction ws with
  | nil =>
    intro cur sz hsz hcur g hg
    by_cases h : cur = [] <;> simp [chunkWords, h] at hg
    subst hg
    rcases hcur with hc | hc | hc
    · exact absurd hc h
    · exact Or.inl hc
    · exact Or.inr hc
  | cons w rest ih =>
    intro cur sz hsz hcur g hg
    simp only [chunkWords] at hg
    by_cases hover : m * 4 < sz + (w.length + 1)
    · rw [if_pos hover] at hg
      by_cases h : cur = []
      · rw [if_pos h] at hg
        refine ih [w] (sz + (w.length + 1)) ?_ (Or.inr (Or.inr rfl)) g hg
        subst h
        simp [wsize] at hsz
        simp [wsize, hsz]
      · rw [if_neg h] at hg
        rcases List.mem_cons.mp hg with hg | hg
        · subst hg
          rcases hcur with hc | hc | hc
          · exact absurd hc h
          · exact Or.inl hc
          · exact Or.inr hc
        · exact ih [w] (w.length + 1) (by simp [wsize]) (Or.inr (Or.inr rfl)) g hg
    · rw [if_neg hover] at hg
      refine ih (cur ++ [w]) (sz + (w.length + 1)) ?_ ?_ g hg
      · simp [wsize, hsz]
      · refine Or.inr (Or.inl ?_)
        have : wsize (cur ++ [w]) = sz + (w.length + 1) := by simp [wsize, hsz]
        rw [this]
        exact Nat.le_of_not_lt hover

/-- Character length of a joined non-empty group, in terms of its size
total. -/
theorem joinWords_length :
    ∀ g : List (List Char), g ≠ [] → (joinWords g).length + 1 = wsize g := by
  intro g
  induction g with
  | nil => intro h; exact absurd rfl h
  | cons w rest ih =>
    intro _
    cases hr : rest with
    | nil => simp [joinWords, wsize]
    | cons x xs =>
      rw [← hr]
      have hrne : rest ≠ [] := by rw [hr]; exact List.cons_ne_nil _ _
      rw [joinWords_cons w rest hrne]
      have : wsize (w :: rest) = (w.length + 1) + wsize rest := by simp [wsize]
      rw [this, ← ih hrne]
      simp
      omega

/-- A word produced by the splitter is no longer than the accumulator plus
the remaining input. -/
theorem splitWordsAux_word_length :
    ∀ (s cur w : List Char), w ∈ splitWordsAux s cur → w.length ≤ cur.length + s.length := by
  intro s
  induction s with
  | nil =>
    intro cur w hw
    by_cases h : cur = [] <;> simp [splitWordsAux, h] at hw
    subst hw; simp
  | cons c cs ih =>
    intro cur w hw
    simp only [splitWordsAux] at hw
    by_cases hws : isWS c = true
    · rw [if_pos hws] at hw
      by_cases h : cur = []
      · rw [if_pos h] at hw
        have := ih [] w hw
        simp at this
        simp
        omega
      · rw [if_neg h] at hw
        rcases List.mem_cons.mp hw with hw | hw
        · subst hw; simp
        · have := ih [] w hw
          simp at this
          simp
          omega
    · rw [if_neg hws] at hw
      have := ih (cur ++ [c]) w hw
      simp at this ⊢
      omega

/-- Membership in a flattened list of groups. -/
theorem mem_flatten_of_mem {α : Type} {x : α} {g : List α} {gs : List (List α)}
    (hg : g ∈ gs) (hx : x ∈ g) : x ∈ gs.flatten :=
  List.mem_flatten.mpr ⟨g, hg, hx⟩

/-- Claim C2: for every input text (and any size budget), `chunk_text`
returns a non-empty list; joining the produced chunks with single spaces
reproduces exactly the whitespace-split word sequence of the input; and for
an input containing no words the result is the single-element list holding
the original text. -/
theorem chunk_text_reconstructs (text : List Char) (m : Nat) :
    chunk_text text m ≠ []
    ∧ splitWords (joinWords (chunk_text text m)) = splitWords text
    ∧ (splitWords text = [] → chunk_text text m = [text]) := by
  by_cases hg : chunkWords m (splitWords text) [] 0 = []
  · have hct : chunk_text text m = [text] := by
      simp [chunk_text, hg]
    refine ⟨by simp [hct], ?_, fun _ => hct⟩
    rw [hct]
    rfl
  · have hmap : (chunkWords m (splitWords text) [] 0).map joinWords ≠ [] := by
      simpa using hg
    have hct : chunk_text text m = (chunkWords m (splitWords text) [] 0).map joinWords := by
      simp [chunk_text, hmap]
    have hne : ∀ g ∈ chunkWords m (splitWords text) [] 0, g ≠ [] :=
      fun g hgm => chunkWords_ne_nil m _ _ _ g hgm
    have hflat : (chunkWords m (splitWords text) [] 0).flatten = splitWords text := by
      simpa using chunkWords_join m (splitWords text) [] 0
    refine ⟨by rw [hct]; exact hmap, ?_, ?_⟩
    · rw [hct, joinWords_map_join _ hne, hflat,
        splitWords_join (splitWords text) (splitWords_proper text)]
    · intro hw
      exfalso
      apply hg
      rw [hw]
      rfl

/-- The words of a chunk are exactly its group, for any group of the chunk
loop run on the words of `text`. -/
theorem splitWords_of_group (text : List Char) (m : Nat)
    (g : List (List Char)) (hg : g ∈ chunkWords m (splitWords text) [] 0) :
    splitWords (joinWords g) = g := by
  have hflat : (chunkWords m (splitWords text) [] 0).flatten = splitWords text := by
    simpa using chunkWords_join m (splitWords text) [] 0
  refine splitWords_join g ?_
  intro w hw
  refine splitWords_proper text w ?_
  rw [← hflat]
  exact mem_flatten_of_mem hg hw

/-- Claim C7 (amended: the input must contain at least one word —
otherwise `chunk_text` returns the original text verbatim, which can
exceed any budget without being a word): every chunk fits in
`max_size * 4` characters or consists of exactly one word; an oversized
word occupies its own chunk; and the chunks' words concatenate to the
input's words, so no boundary falls inside a word. -/
theorem chunk_text_size_bound (text : List Char) (m : Nat) (hm : 0 < m)
    (hw : splitWords text ≠ []) :
    (∀ c ∈ chunk_text text m, c.length ≤ m * 4 ∨ (splitWords c).length = 1)
    ∧ (∀ c ∈ chunk_text text m, ∀ w ∈ splitWords c, m * 4 < w.length → splitWords c = [w])
    ∧ ((chunk_text text m).map splitWords).flatten = splitWords text := by
  have hgne : chunkWords m (splitWords text) [] 0 ≠ [] := by
    intro hc
    apply hw
    have := chunkWords_join m (splitWords text) [] 0
    rw [hc] at this
    simpa using this.symm
  have hmap : (chunkWords m (splitWords text) [] 0).map joinWords ≠ [] := by
    simpa using hgne
  have hct : chunk_text text m = (chunkWords m (splitWords text) [] 0).map joinWords := by
    simp [chunk_text, hmap]
  have hsize := chunkWords_size m (splitWords text) [] 0 (by simp [wsize]) (Or.inl rfl)
  have hchunk : ∀ c ∈ chunk_text text m,
      c.length ≤ m * 4 ∨ (splitWords c).length = 1 := by
    intro c hc
    rw [hct] at hc
    rcases List.mem_map.mp hc with ⟨g, hgm, hgc⟩
    rcases hsize g hgm with hsz | hone
    · left
      have hgne2 : g ≠ [] := chunkWords_ne_nil m _ _ _ g hgm
      have := joinWords_length g hgne2
      rw [hgc] at this
      omega
    · right
      rcases List.length_eq_one.mp hone with ⟨w, hwg⟩
      rw [← hgc, splitWords_of_group text m g hgm, hwg]
      rfl
  refine ⟨hchunk, ?_, ?_⟩
  · intro c hc w hwm hlong
    rcases hchunk c hc with hlen | hone
    · exfalso
      have hwlen : w.length ≤ c.length := by
        have := splitWordsAux_word_length c [] w hwm
        simpa using this
      omega
    · rcases List.length_eq_one.mp hone with ⟨w2, hw2⟩
      rw [hw2] at hwm
      simp at hwm
      rw [hw2, hwm]
  · rw [hct, List.map_map]
    have heq : ∀ g ∈ chunkWords m (splitWords text) [] 0,
        (splitWords ∘ joinWords) g = id g :=
      fun g hgm => splitWords_of_group text m g hgm
    rw [List.map_congr_left heq, List.map_id]
    simpa using chunkWords_join m (splitWords text) [] 0

/-- Claim C7 as stated fails on a wordless input: five spaces with budget
`1 * 4` come back as one five-character chunk that is not a single word. -/
theorem chunk_text_size_bound_cex :
    ¬ (∀ c ∈ chunk_text ("     ".toList) 1,
        c.length ≤ 1 * 4 ∨ (splitWords c).length = 1) := by
  decide

/-- Claim C9 (amended: a chunk is a contiguous run of the input's *words*;
as a character string it is contiguous in the single-space-joined word
sequence, not necessarily in the raw input): the word sequence of every
chunk is a contiguous subsequence of the input's word sequence. -/
theorem chunk_words_contiguous (text : List Char) (m : Nat) :
    ∀ c ∈ chunk_text text m, splitWords c <:+: splitWords text := by
  intro c hc
  by_cases hg : chunkWords m (splitWords text) [] 0 = []
  · have hct : chunk_text text m = [text] := by simp [chunk_text, hg]
    rw [hct] at hc
    simp at hc
    subst hc
    exact List.infix_rfl
  · have hmap : (chunkWords m (splitWords text) [] 0).map joinWords ≠ [] := by
      simpa using hg
    have hct : chunk_text text m = (chunkWords m (splitWords text) [] 0).map joinWords := by
      simp [chunk_text, hmap]
    rw [hct] at hc
    rcases List.mem_map.mp hc with ⟨g, hgm, hgc⟩
    rw [← hgc, splitWords_of_group text m g hgm]
    have hflat : (chunkWords m (splitWords text) [] 0).flatten = splitWords text := by
      simpa using chunkWords_join m (splitWords text) [] 0
    rw [← hflat]
    exact List.infix_of_mem_flatten hgm

/-- Claim C9 as stated fails: with two spaces between words the produced
chunk `"a b"` is not a substring of the input `"a  b"`. -/
theorem chunk_words_contiguous_cex :
    chunk_text ("a  b".toList) MAX_CHUNK_SIZE = ["a b".toList]
    ∧ ¬ ("a b".toList <:+: "a  b".toList) := by
  constructor
  · decide
  · decide

/-- Witness for C2: a wordless input comes back verbatim. -/
theorem chunk_text_reconstructs_wit :
    chunk_text ("  ".toList) MAX_CHUNK_SIZE = ["  ".toList] :=
  (chunk_text_reconstructs ("  ".toList) MAX_CHUNK_SIZE).2.2 (by decide)

/-- Witness for C7: the oversized word `"aaaaa"` sits alone in its chunk. -/
theorem chunk_text_size_bound_wit :
    splitWords ("aaaaa".toList) = ["aaaaa".toList] :=
  (chunk_text_size_bound ("aaaaa bb".toList) 1 (by decide) (by decide)).2.1
    ("aaaaa".toList) (by decide) ("aaaaa".toList) (by decide) (by decide)

/-- Witness for C9 (amended form) at a concrete chunk. -/
theorem chunk_words_contiguous_wit :
    splitWords ("ab cd".toList) <:+: splitWords ("ab cd".toList) :=
  chunk_words_contiguous ("ab cd".toList) MAX_CHUNK_SIZE ("ab cd".toList) (by decide)

/-! ## Lemmas about the validator -/

/-- Complete destructuring of a successful `validate_mcq`. -/
theorem validate_mcq_eq_some (v : JValue) (mcq : MCQ) (h : validate_mcq v = some mcq) :
    ∃ d q os a, v = JValue.jobj d
      ∧ jlookup d QUESTION = some q
      ∧ jlookup d OPTIONS = some (JValue.jarr os)
      ∧ jlookup d ANSWER = some a
      ∧ os.length = 4
      ∧ pyIsInt a = true ∧ 0 ≤ pyIntVal a ∧ pyIntVal a ≤ 3
      ∧ mcq = ⟨q, os, pyIntVal a, (jlookup d EXPLANATION).getD (JValue.jstr [])⟩ := by
  cases v with
  | jobj d =>
    simp only [validate_mcq] at h
    rcases hq : jlookup d QUESTION with _ | q <;> rw [hq] at h
    · simp at h
    rcases ho : jlookup d OPTIONS with _ | opts <;> rw [ho] at h
    · simp at h
    rcases ha : jlookup d ANSWER with _ | a <;> rw [ha] at h
    · simp at h
    cases opts with
    | jarr os =>
      simp only [] at h
      by_cases hlen : os.length = 4
      · rw [if_pos hlen] at h
        by_cases hcond : (pyIsInt a && decide (0 ≤ pyIntVal a) && decide (pyIntVal a ≤ 3)) = true
        · rw [if_pos hcond] at h
          simp only [Bool.and_eq_true, decide_eq_true_eq] at hcond
          refine ⟨d, q, os, a, rfl, hq, ho, ha, hlen, hcond.1.1, hcond.1.2, hcond.2, ?_⟩
          exact (Option.some_inj.mp h).symm
        · rw [if_neg hcond] at h
          simp at h
      · rw [if_neg hlen] at h
        simp at h
    | jnull => simp at h
    | jbool b => simp at h
    | jint n => simp at h
    | jfloat r => simp at h
    | jstr s => simp at h
    | jobj f => simp at h
  | jnull => simp [validate_mcq] at h
  | jbool b => simp [validate_mcq] at h
  | jint n => simp [validate_mcq] at h
  | jfloat r => simp [validate_mcq] at h
  | jstr s => simp [validate_mcq] at h
  | jarr xs => simp [validate_mcq] at h

/-- `validate_mcq` accepts any record satisfying its checks, packaging the
fields as the source does. -/
theorem validate_mcq_accepts (d : List (List Char × JValue)) (q : JValue)
    (os : List JValue) (a : JValue)
    (hq : jlookup d QUESTION = some q)
    (ho : jlookup d OPTIONS = some (JValue.jarr os))
    (ha : jlookup d ANSWER = some a)
    (hlen : os.length = 4)
    (hint : pyIsInt a = true) (h0 : 0 ≤ pyIntVal a) (h3 : pyIntVal a ≤ 3) :
    validate_mcq (JValue.jobj d) =
      some ⟨q, os, pyIntVal a, (jlookup d EXPLANATION).getD (JValue.jstr [])⟩ := by
  simp only [validate_mcq]
  rw [hq, ho, ha]
  simp [hlen, hint, h0, h3]

/-- Claim C3 (amended: Python's `isinstance(x, int)` also holds for
booleans, so a boolean `answer` whose 0/1 value lies in [0,3] is accepted
too): `validate_mcq` returns an MCQ exactly when the record has the three
keys, `options` is a list of exactly 4 elements, and `answer` passes the
integer-instance check (an integer, or a boolean read as 0/1) with value in
[0,3]; the produced explanation is the record's `explanation` value, or the
empty string when absent; every other candidate yields `none`. -/
theorem validate_mcq_characterization (v : JValue) :
    ((validate_mcq v).isSome = true ↔
      ∃ d, v = JValue.jobj d
        ∧ (jlookup d QUESTION).isSome = true
        ∧ (∃ os, jlookup d OPTIONS = some (JValue.jarr os) ∧ os.length = 4)
        ∧ (∃ a, jlookup d ANSWER = some a ∧ pyIsInt a = true
            ∧ 0 ≤ pyIntVal a ∧ pyIntVal a ≤ 3))
    ∧ (∀ d mcq, v = JValue.jobj d → validate_mcq v = some mcq →
        mcq.explanation = (jlookup d EXPLANATION).getD (JValue.jstr [])) := by
  constructor
  · constructor
    · intro h
      rcases Option.isSome_iff_exists.mp h with ⟨mcq, hm⟩
      rcases validate_mcq_eq_some v mcq hm with
        ⟨d, q, os, a, hv, hq, ho, ha, hlen, hint, h0, h3, _⟩
      exact ⟨d, hv, by simp [hq], ⟨os, ho, hlen⟩, ⟨a, ha, hint, h0, h3⟩⟩
    · rintro ⟨d, rfl, hq, ⟨os, ho, hlen⟩, ⟨a, ha, hint, h0, h3⟩⟩
      rcases Option.isSome_iff_exists.mp hq with ⟨q, hq2⟩
      rw [validate_mcq_accepts d q os a hq2 ho ha hlen hint h0 h3]
      rfl
  · intro d mcq hv hm
    rcases validate_mcq_eq_some v mcq hm with
      ⟨d2, q, os, a, hv2, _, _, _, _, _, _, _, hmcq⟩
    have hd : d2 = d := by
      rw [hv] at hv2
      injection hv2.symm
    subst hd
    rw [hmcq]

/-- Four concrete string options used by witnesses. -/
def OPTS4 : List JValue :=
  [JValue.jstr "a".toList, JValue.jstr "b".toList,
   JValue.jstr "c".toList, JValue.jstr "d".toList]

/-- A concrete candidate record whose `answer` is the boolean `true`. -/
def REC_BOOL : List (List Char × JValue) :=
  [(QUESTION, JValue.jstr "q".toList), (OPTIONS, JValue.jarr OPTS4),
   (ANSWER, JValue.jbool true)]

/-- A concrete candidate record whose `answer` is the integer 0. -/
def REC_INT0 : List (List Char × JValue) :=
  [(QUESTION, JValue.jstr "q".toList), (OPTIONS, JValue.jarr OPTS4),
   (ANSWER, JValue.jint 0)]

/-- Claim C3 as stated fails: a record whose `answer` is the boolean `true`
— not an integer — is accepted, because `isinstance(True, int)` holds in
Python. -/
theorem validate_mcq_characterization_cex :
    ((validate_mcq (JValue.jobj REC_BOOL)).isSome = true)
    ∧ (∀ n : Int, jlookup REC_BOOL ANSWER ≠ some (JValue.jint n)) := by
  constructor
  · rfl
  · intro n hc
    have : jlookup REC_BOOL ANSWER = some (JValue.jbool true) := rfl
    rw [this] at hc
    simp at hc

/-- Claim C10: a candidate whose `answer` is a JSON boolean passes
validation — `isinstance(True, int)` holds in Python — and the produced
answer index is 1 for `true` and 0 for `false`. -/
theorem validate_mcq_bool_answer (d : List (List Char × JValue)) (q : JValue)
    (os : List JValue) (b : Bool)
    (hq : jlookup d QUESTION = some q)
    (ho : jlookup d OPTIONS = some (JValue.jarr os))
    (ha : jlookup d ANSWER = some (JValue.jbool b))
    (hlen : os.length = 4) :
    validate_mcq (JValue.jobj d) =
      some ⟨q, os, if b then 1 else 0, (jlookup d EXPLANATION).getD (JValue.jstr [])⟩ := by
  have := validate_mcq_accepts d q os (JValue.jbool b) hq ho ha hlen rfl
    (by cases b <;> simp [pyIntVal]) (by cases b <;> simp [pyIntVal])
  rw [this]
  cases b <;> rfl

/-- Witness for C10 with the boolean `true`. -/
theorem validate_mcq_bool_answer_wit :
    validate_mcq (JValue.jobj REC_BOOL) =
      some ⟨JValue.jstr "q".toList, OPTS4, 1, JValue.jstr []⟩ := by
  have := validate_mcq_bool_answer REC_BOOL (JValue.jstr "q".toList) OPTS4
    true rfl rfl rfl rfl
  rw [this]
  rfl

/-- Witness for C3 (amended form): the explanation of the accepted
record with integer answer 0 defaults to the empty string. -/
theorem validate_mcq_characterization_wit :
    (⟨JValue.jstr "q".toList, OPTS4, 0, JValue.jstr []⟩ : MCQ).explanation =
      (jlookup REC_INT0 EXPLANATION).getD (JValue.jstr []) :=
  (validate_mcq_characterization (JValue.jobj REC_INT0)).2 REC_INT0
    ⟨JValue.jstr "q".toList, OPTS4, 0, JValue.jstr []⟩ rfl rfl

/-! ## Lemmas about the response parser -/

/-- The lazy close scan splits its input at the `]` it finds. -/
theorem lazyClose_decomp :
    ∀ (v t : List Char), lazyClose v = some t → ∃ r, v = t ++ ']' :: r := by
  intro v
  induction v with
  | nil => intro t h; simp [lazyClose] at h
  | cons c cs ih =>
    intro t h
    simp only [lazyClose] at h
    by_cases hc : (c = ']' && hasFence (cs.dropWhile isWS)) = true
    · rw [if_pos hc] at h
      simp only [Bool.and_eq_true, decide_eq_true_eq] at hc
      rcases Option.some_inj.mp h with rfl
      exact ⟨cs, by rw [hc.1]; rfl⟩
    · rw [if_neg hc] at h
      rcases Option.map_eq_some'.mp h with ⟨t2, ht2, rfl⟩
      rcases ih t2 ht2 with ⟨r, hr⟩
      exact ⟨r, by rw [hr]; rfl⟩

/-- The fence-tail group is a contiguous substring of its input. -/
theorem fenceTail_sub (u g : List Char) (h : fenceTail u = some g) : g <:+: u := by
  simp only [fenceTail] at h
  split at h
  · rename_i w heq
    rcases Option.map_eq_some'.mp h with ⟨t, ht, rfl⟩
    rcases lazyClose_decomp w t ht with ⟨r, hr⟩
    refine ⟨u.takeWhile isWS, r, ?_⟩
    conv_rhs => rw [← List.takeWhile_append_dropWhile isWS u]
    rw [heq, hr]
    simp
  · simp at h

/-- An anchored fence match is a contiguous substring of the scanned text. -/
theorem tryFenceAt_sub (s g : List Char) (h : tryFenceAt s = some g) : g <:+: s := by
  simp only [tryFenceAt] at h
  by_cases hf : hasFence s = true
  · rw [if_pos hf] at h
    by_cases hj : (s.drop 3).take 4 = "json".toList
    · rw [if_pos hj] at h
      exact ((fenceTail_sub _ g h).trans (List.drop_suffix 4 (s.drop 3)).isInfix).trans
        (List.drop_suffix 3 s).isInfix
    · rw [if_neg hj] at h
      exact (fenceTail_sub _ g h).trans (List.drop_suffix 3 s).isInfix
  · rw [if_neg hf] at h
    simp at h

/-- The fenced-block group is a contiguous substring of the response. -/
theorem findFenced_sub :
    ∀ (s g : List Char), findFenced s = some g → g <:+: s := by
  intro s
  induction s with
  | nil => intro g h; simp [findFenced] at h
  | cons c cs ih =>
    intro g h
    simp only [findFenced] at h
    rcases ht : tryFenceAt (c :: cs) with _ | g2 <;> rw [ht] at h
    · exact (ih g h).trans (List.suffix_cons c cs).isInfix
    · rcases Option.some_inj.mp h with rfl
      exact tryFenceAt_sub _ _ ht

/-- `afterFirst` returns a suffix. -/
theorem afterFirst_suffix (c : Char) :
    ∀ (s t : List Char), afterFirst c s = some t → t <:+ s := by
  intro s
  induction s with
  | nil => intro t h; simp [afterFirst] at h
  | cons x xs ih =>
    intro t h
    simp only [afterFirst] at h
    by_cases hx : x = c
    · rw [if_pos hx] at h
      rcases Option.some_inj.mp h with rfl
      exact List.suffix_rfl
    · rw [if_neg hx] at h
      exact (ih t h).trans (List.suffix_cons x xs)

/-- `upToLast` returns a prefix. -/
theorem upToLast_pre (c : Char) :
    ∀ (s u : List Char), upToLast c s = some u → ∃ r, s = u ++ r := by
  intro s
  induction s with
  | nil => intro u h; simp [upToLast] at h
  | cons x xs ih =>
    intro u h
    simp only [upToLast] at h
    rcases ht : upToLast c xs with _ | t <;> rw [ht] at h
    · by_cases hx : x = c
      · rw [if_pos hx] at h
        rcases Option.some_inj.mp h with rfl
        exact ⟨xs, rfl⟩
      · rw [if_neg hx] at h
        simp at h
    · rcases Option.some_inj.mp h with rfl
      rcases ih t ht with ⟨r, hr⟩
      exact ⟨r, by rw [hr]; rfl⟩

/-- The bracket-delimited group is a contiguous substring of the response. -/
theorem findBracket_sub (s g : List Char) (h : findBracket s = some g) : g <:+: s := by
  simp only [findBracket] at h
  rcases ha : afterFirst '[' s with _ | t <;> rw [ha] at h
  · simp at h
  cases t with
  | nil => simp at h
  | cons x xs =>
    simp only [Option.some_bind] at h
    rcases hu : upToLast ']' xs with _ | u <;> rw [hu] at h
    · simp at h
    · rcases Option.map_eq_some'.mp h with ⟨u2, hu2, rfl⟩
      rcases Option.some_inj.mp hu2 with rfl
      rcases upToLast_pre ']' xs u hu with ⟨r, hr⟩
      have hpre : x :: u <+: x :: xs := ⟨r, by rw [hr]; rfl⟩
      exact hpre.isInfix.trans (afterFirst_suffix '[' s (x :: xs) ha).isInfix

/-- Every contiguous substring is listed by `allInfixes`. -/
theorem mem_allInfixes (s t : List Char) (h : t <:+: s) : t ∈ allInfixes s := by
  rcases h with ⟨pre, post, hsp⟩
  have hsuf : t ++ post <:+ s := ⟨pre, by rw [← hsp, List.append_assoc]⟩
  have h1 : t ++ post ∈ s.tails := (List.mem_tails _ _).mpr hsuf
  have h2 : t ∈ (t ++ post).inits := (List.mem_inits _ _).mpr ⟨post, rfl⟩
  unfold allInfixes
  rw [List.mem_flatMap]
  exact ⟨t ++ post, h1, h2⟩

/-- Claim C4: the three recovery strategies are applied in order — whole
blob as JSON array, fenced code block, first bracket-delimited substring —
the first success is returned, and when no contiguous substring of the
response parses as a JSON array (so all three strategies fail) the result
is the empty list rather than an error. -/
theorem extract_json_strategies (s : List Char) :
    (∀ xs, parseArr s = some xs → extract_json_from_response s = xs)
    ∧ (∀ xs, parseArr s = none → (findFenced s).bind parseArr = some xs →
        extract_json_from_response s = xs)
    ∧ (∀ xs, parseArr s = none → (findFenced s).bind parseArr = none →
        (findBracket s).bind parseArr = some xs → extract_json_from_response s = xs)
    ∧ ((∀ t ∈ allInfixes s, (parseArr t).isNone = true) →
        extract_json_from_response s = []) := by
  refine ⟨?_, ?_, ?_, ?_⟩
  · intro xs h1
    simp [extract_json_from_response, h1]
  · intro xs h1 h2
    simp [extract_json_from_response, h1, h2]
  · intro xs h1 h2 h3
    simp [extract_json_from_response, h1, h2, h3]
  · intro hall
    have h1 : parseArr s = none :=
      Option.isNone_iff_eq_none.mp (hall s (mem_allInfixes s s List.infix_rfl))
    have h2 : (findFenced s).bind parseArr = none := by
      rcases hf : findFenced s with _ | g
      · rfl
      · have := hall g (mem_allInfixes s g (findFenced_sub s g hf))
        simpa using Option.isNone_iff_eq_none.mp this
    have h3 : (findBracket s).bind parseArr = none := by
      rcases hb : findBracket s with _ | g
      · rfl
      · have := hall g (mem_allInfixes s g (findBracket_sub s g hb))
        simpa using Option.isNone_iff_eq_none.mp this
    simp [extract_json_from_response, h1, h2, h3]

/-- Witness for C4: the spec's example text holds no JSON array anywhere. -/
theorem extract_json_strategies_wit :
    extract_json_from_response ("no json here".toList) = [] :=
  (extract_json_strategies ("no json here".toList)).2.2.2 (by decide)

/-! ## Lemmas about the orchestrator -/

/-- The record loop never grows the accumulator past the requested total. -/
theorem procRecords_length_le (n : Nat) :
    ∀ (ds : List JValue) (acc : List MCQ), acc.length ≤ n →
      (procRecords ds n acc).length ≤ n := by
  intro ds
  induction ds with
  | nil => intro acc h; exact h
  | cons d rest ih =>
    intro acc h
    simp only [procRecords]
    rcases hv : validate_mcq d with _ | m <;> simp only [hv]
    · exact ih acc h
    · by_cases hlt : acc.length < n
      · rw [if_pos hlt]
        exact ih _ (by simpa using hlt)
      · rw [if_neg hlt]
        exact ih acc h

/-- Everything the record loop adds has passed validation. -/
theorem procRecords_mem (n : Nat) :
    ∀ (ds : List JValue) (acc : List MCQ) (m : MCQ), m ∈ procRecords ds n acc →
      m ∈ acc ∨ ∃ d, validate_mcq d = some m := by
  intro ds
  induction ds with
  | nil => intro acc m hm; exact Or.inl hm
  | cons d rest ih =>
    intro acc m hm
    simp only [procRecords] at hm
    rcases hv : validate_mcq d with _ | m2 <;> simp only [hv] at hm
    · exact ih acc m hm
    · by_cases hlt : acc.length < n
      · rw [if_pos hlt] at hm
        rcases ih _ m hm with hin | hval
        · rcases List.mem_append.mp hin with hin | hin
          · exact Or.inl hin
          · simp only [List.mem_singleton] at hin
            subst hin
            exact Or.inr ⟨d, hv⟩
        · exact Or.inr hval
      · rw [if_neg hlt] at hm
        exact ih acc m hm

/-- Claim C1 core: a successful chunk loop never returns more than `n`
MCQs, provided the accumulator already respects the cap. -/
theorem genLoop_ok_le (oracle : Oracle) (n : Nat) (difficulty : List Char) :
    ∀ (chunks : List (List Char)) (cidx k qpc : Nat) (acc : List MCQ)
      (trace : List CallRec) (l : List MCQ),
      acc.length ≤ n →
      (genLoop oracle n difficulty chunks cidx k qpc acc trace).1 = .ok l →
      l.length ≤ n := by
  intro chunks
  induction chunks with
  | nil =>
    intro cidx k qpc acc trace l hacc hres
    simp only [genLoop] at hres
    injection hres with h2
    subst h2
    exact hacc
  | cons chunk rest ih =>
    intro cidx k qpc acc trace l hacc hres
    simp only [genLoop] at hres
    split at hres
    · injection hres with h2
      subst h2
      exact hacc
    · split at hres
      · simp at hres
      · split at hres
        · split at hres
          · simp at hres
          · exact ih _ _ _ _ _ l
              (procRecords_length_le n _ _ (procRecords_length_le n _ _ hacc)) hres
        · exact ih _ _ _ _ _ l (procRecords_length_le n _ _ hacc) hres

/-- Claim C1: for every input, requested count, and generation-service
behaviour, a successfully returned MCQ list has length at most
`n_questions`. -/
theorem generate_mcqs_cap (oracle : Oracle) (text : List Char) (n : Nat)
    (difficulty : List Char) (l : List MCQ)
    (h : (generate_mcqs_from_text oracle text n difficulty).1 = .ok l) :
    l.length ≤ n :=
  genLoop_ok_le oracle n difficulty _ 0 0 _ [] [] l (by simp) h

/-- Shape guaranteed by validation: exactly 4 options, answer in [0,3]. -/
theorem validate_mcq_shape (d : JValue) (m : MCQ) (h : validate_mcq d = some m) :
    m.options.length = 4 ∧ 0 ≤ m.answer ∧ m.answer ≤ 3 := by
  rcases validate_mcq_eq_some d m h with ⟨d2, q, os, a, _, _, _, _, hlen, _, h0, h3, hm⟩
  subst hm
  exact ⟨hlen, h0, h3⟩

/-- Claim C8 core: every MCQ a successful chunk loop returns has the
validated shape, provided the accumulator does. -/
theorem genLoop_ok_shape (oracle : Oracle) (n : Nat) (difficulty : List Char) :
    ∀ (chunks : List (List Char)) (cidx k qpc : Nat) (acc : List MCQ)
      (trace : List CallRec) (l : List MCQ),
      (∀ m ∈ acc, m.options.length = 4 ∧ 0 ≤ m.answer ∧ m.answer ≤ 3) →
      (genLoop oracle n difficulty chunks cidx k qpc acc trace).1 = .ok l →
      ∀ m ∈ l, m.options.length = 4 ∧ 0 ≤ m.answer ∧ m.answer ≤ 3 := by
  intro chunks
  have hproc : ∀ (ds : List JValue) (acc : List MCQ),
      (∀ m ∈ acc, m.options.length = 4 ∧ 0 ≤ m.answer ∧ m.answer ≤ 3) →
      ∀ m ∈ procRecords ds n acc, m.options.length = 4 ∧ 0 ≤ m.answer ∧ m.answer ≤ 3 := by
    intro ds acc hacc m hm
    rcases procRecords_mem n ds acc m hm with hin | ⟨d, hd⟩
    · exact hacc m hin
    · exact validate_mcq_shape d m hd
  induction chunks with
  | nil =>
    intro cidx k qpc acc trace l hacc hres
    simp only [genLoop] at hres
    injection hres with h2
    subst h2
    exact hacc
  | cons chunk rest ih =>
    intro cidx k qpc acc trace l hacc hres
    simp only [genLoop] at hres
    split at hres
    · injection hres with h2
      subst h2
      exact hacc
    · split at hres
      · simp at hres
      · split at hres
        · split at hres
          · simp at hres
          · exact ih _ _ _ _ _ l (hproc _ _ (hproc _ _ hacc)) hres
        · exact ih _ _ _ _ _ l (hproc _ _ hacc) hres

/-- Claim C8 (amended: the question may be empty — and is not inspected at
all by validation — but the structural shape holds): every MCQ in a
successful response has exactly 4 options and an answer index in [0,3]. -/
theorem generate_mcqs_shape (oracle : Oracle) (text : List Char) (n : Nat)
    (difficulty : List Char) (l : List MCQ)
    (h : (generate_mcqs_from_text oracle text n difficulty).1 = .ok l) :
    ∀ m ∈ l, m.options.length = 4 ∧ 0 ≤ m.answer ∧ m.answer ≤ 3 :=
  genLoop_ok_shape oracle n difficulty _ 0 0 _ [] [] l (by simp) h

/-- A 200 transport body whose `response` field is a JSON array holding one
valid record with an empty question and no explanation. -/
def OK_BODY : List Char :=
  "\x7b\"response\": \"[\x7b\\\"question\\\": \\\"\\\", \\\"options\\\": [\\\"a\\\", \\\"b\\\", \\\"c\\\", \\\"d\\\"], \\\"answer\\\": 0\x7d]\"\x7d".toList

/-- A generation service that always answers with `OK_BODY`. -/
def oracleOK : Oracle := fun _ _ => .success 200 OK_BODY

/-- The MCQ decoded and validated from `OK_BODY`. -/
def MCQ_EMPTYQ : MCQ := ⟨JValue.jstr [], OPTS4, 0, JValue.jstr []⟩

/-- Claim C8 as stated fails: a full pipeline run returns an MCQ whose
question is the empty string, so "non-empty question text" does not hold of
every response. -/
theorem generate_mcqs_shape_cex :
    (generate_mcqs_from_text oracleOK "t".toList 1 "medium".toList).1 = .ok [MCQ_EMPTYQ]
    ∧ MCQ_EMPTYQ.question = JValue.jstr [] :=
  ⟨rfl, rfl⟩

/-- Witness for C8 (amended form) on the same concrete run. -/
theorem generate_mcqs_shape_wit :
    MCQ_EMPTYQ.options.length = 4 ∧ 0 ≤ MCQ_EMPTYQ.answer ∧ MCQ_EMPTYQ.answer ≤ 3 :=
  generate_mcqs_shape oracleOK "t".toList 1 "medium".toList [MCQ_EMPTYQ] rfl MCQ_EMPTYQ
    (List.mem_singleton.mpr rfl)

/-- Witness for C1 on a concrete successful run. -/
theorem generate_mcqs_cap_wit :
    ([MCQ_EMPTYQ] : List MCQ).length ≤ 1 :=
  generate_mcqs_cap oracleOK "t".toList 1 "medium".toList [MCQ_EMPTYQ] rfl

/-- Claim C5 core: when calls `0, …, K-1` succeed and call `K` fails with
error `e`, the chunk loop either finishes without issuing call `K` (its
trace stays within `K` calls) or terminates with exactly `e`. -/
theorem genLoop_err (oracle : Oracle) (n : Nat) (difficulty : List Char)
    (K : Nat) (e : HTTPError)
    (h1 : ∀ i p, i < K → ∃ t, call_ollama_generate (oracle i p) = .ok t)
    (h2 : ∀ p, call_ollama_generate (oracle K p) = .error e) :
    ∀ (chunks : List (List Char)) (cidx k qpc : Nat) (acc : List MCQ)
      (trace : List CallRec),
      k ≤ K → trace.length = k →
      (genLoop oracle n difficulty chunks cidx k qpc acc trace).1 = .error e
      ∨ (genLoop oracle n difficulty chunks cidx k qpc acc trace).2.length ≤ K := by
  intro chunks
  induction chunks with
  | nil =>
    intro cidx k qpc acc trace hk htr
    right
    simp only [genLoop]
    omega
  | cons chunk rest ih =>
    intro cidx k qpc acc trace hk htr
    simp only [genLoop]
    split
    · right
      simpa [htr] using hk
    · split
      · rename_i e2 heq
        rcases Nat.lt_or_ge k K with hlt | hge
        · rcases h1 k _ hlt with ⟨t, hcall⟩
          rw [hcall] at heq
          simp at heq
        · have hK : k = K := by omega
          subst hK
          rw [h2 _] at heq
          injection heq with h3
          subst h3
          exact Or.inl rfl
      · rename_i resp heq
        rcases Nat.lt_or_ge k K with hlt | hge
        · split
          · split
            · rename_i e2 heq2
              rcases Nat.lt_or_ge (k + 1) K with hlt2 | hge2
              · rcases h1 (k + 1) _ hlt2 with ⟨t2, hcall2⟩
                rw [hcall2] at heq2
                simp at heq2
              · have hK : k + 1 = K := by omega
                rw [hK] at heq2
                rw [h2 _] at heq2
                injection heq2 with h3
                subst h3
                exact Or.inl rfl
            · rename_i resp2 heq2
              rcases Nat.lt_or_ge (k + 1) K with hlt2 | hge2
              · exact ih _ (k + 2) _ _ _ (by omega) (by simp [htr])
              · exfalso
                have hK : k + 1 = K := by omega
                rw [hK, h2 _] at heq2
                simp at heq2
          · exact ih _ (k + 1) _ _ _ (by omega) (by simp [htr])
        · have hK : k = K := by omega
          subst hK
          rw [h2 _] at heq
          simp at heq

/-- Claim C5: if every generation call before the `K`-th succeeds and the
`K`-th fails (connection refused, timeout, bad status, or other transport
failure), then either the request never issues that call, or it terminates
with exactly that error — in particular no partial MCQ list is returned,
whatever was already accumulated. -/
theorem generate_mcqs_err (oracle : Oracle) (text : List Char) (n : Nat)
    (difficulty : List Char) (K : Nat) (e : HTTPError)
    (h1 : ∀ i p, i < K → ∃ t, call_ollama_generate (oracle i p) = .ok t)
    (h2 : ∀ p, call_ollama_generate (oracle K p) = .error e) :
    (generate_mcqs_from_text oracle text n difficulty).1 = .error e
    ∨ (generate_mcqs_from_text oracle text n difficulty).2.length ≤ K :=
  genLoop_err oracle n difficulty K e h1 h2 _ 0 0 _ [] [] (Nat.zero_le K) rfl

/-- A generation service that is unreachable. -/
def oracleDown : Oracle := fun _ _ => .connectionError

/-- Witness for C5: with the service down, the very first call fails and
the request terminates with the 503 error. -/
theorem generate_mcqs_err_wit :
    (generate_mcqs_from_text oracleDown "t".toList 3 "easy".toList).1 =
      .error ⟨503, MSG_CONN⟩
    ∨ (generate_mcqs_from_text oracleDown "t".toList 3 "easy".toList).2.length ≤ 0 :=
  generate_mcqs_err oracleDown "t".toList 3 "easy".toList 0 ⟨503, MSG_CONN⟩
    (fun i _ h => absurd h (Nat.not_lt_zero i)) (fun _ => rfl)

/-- `chunk_text` never returns an empty list. -/
theorem chunk_text_ne_nil (text : List Char) (m : Nat) : chunk_text text m ≠ [] := by
  by_cases hg : chunkWords m (splitWords text) [] 0 = [] <;>
    simp [chunk_text, hg]

/-- From the second chunk on, the loop appends only plain (non-retry)
calls to the trace. -/
theorem genLoop_no_retry_later (oracle : Oracle) (n : Nat) (difficulty : List Char) :
    ∀ (chunks : List (List Char)) (cidx k qpc : Nat) (acc : List MCQ)
      (trace : List CallRec), 1 ≤ cidx →
      ∃ ext, (genLoop oracle n difficulty chunks cidx k qpc acc trace).2 = trace ++ ext
        ∧ ∀ r ∈ ext, r.isRetry = false := by
  intro chunks
  induction chunks with
  | nil =>
    intro cidx k qpc acc trace hc
    exact ⟨[], by simp [genLoop], by simp⟩
  | cons chunk rest ih =>
    intro cidx k qpc acc trace hc
    simp only [genLoop]
    split
    · exact ⟨[], by simp, by simp⟩
    · split
      · rename_i e2 heq
        exact ⟨[⟨cidx, false, _⟩], rfl, by simp⟩
      · rename_i resp heq
        rw [if_neg (fun hcond => by omega)]
        rcases ih (cidx + 1) (k + 1) qpc
            (procRecords (extract_json_from_response resp) n acc)
            (trace ++ [⟨cidx, false, buildPrompt (min (n - acc.length) qpc) difficulty
              (chunk.take 3000)⟩]) (by omega) with ⟨ext, hext, hf⟩
        refine ⟨⟨cidx, false, buildPrompt (min (n - acc.length) qpc) difficulty
            (chunk.take 3000)⟩ :: ext, ?_, ?_⟩
        · rw [hext]
          simp
        · intro r hr
          rcases List.mem_cons.mp hr with hr | hr
          · subst hr; rfl
          · exact hf r hr

/-- The prompt rendered for the first chunk of a request. -/
def firstPrompt (text : List Char) (n : Nat) (difficulty : List Char) : List Char :=
  buildPrompt (min n (min 5 (max 1 (n / (chunk_text text MAX_CHUNK_SIZE).length))))
    difficulty (((chunk_text text MAX_CHUNK_SIZE).headD []).take 3000)

/-- Claim C6: the retry call (the same prompt with the strict JSON-only
instruction appended) is issued at most once, only ever for the first
chunk, and exactly when the first chunk's call succeeded yet parsing and
validation of its reply accumulated zero MCQs. -/
theorem generate_retry_once (oracle : Oracle) (text : List Char) (n : Nat)
    (difficulty : List Char) (hn : 1 ≤ n) :
    (((generate_mcqs_from_text oracle text n difficulty).2.filter
        (fun r => r.isRetry)).length ≤ 1)
    ∧ (∀ r ∈ (generate_mcqs_from_text oracle text n difficulty).2,
        r.isRetry = true → r.chunkIdx = 0)
    ∧ ((∃ r ∈ (generate_mcqs_from_text oracle text n difficulty).2, r.isRetry = true) ↔
        ∃ t, call_ollama_generate (oracle 0 (firstPrompt text n difficulty)) = .ok t
          ∧ procRecords (extract_json_from_response t) n [] = []) := by
  obtain ⟨c0, rest, hchunks⟩ : ∃ c0 rest, chunk_text text MAX_CHUNK_SIZE = c0 :: rest := by
    rcases hc : chunk_text text MAX_CHUNK_SIZE with _ | ⟨c0, rest⟩
    · exact absurd hc (chunk_text_ne_nil text MAX_CHUNK_SIZE)
    · exact ⟨c0, rest, rfl⟩
  have hfp : firstPrompt text n difficulty =
      buildPrompt (min n (min 5 (max 1 (n / (c0 :: rest).length)))) difficulty
        (c0.take 3000) := by
    rw [firstPrompt, hchunks]
    rfl
  simp only [generate_mcqs_from_text, hchunks, genLoop, List.length_nil, Nat.sub_zero,
    Nat.zero_add]
  rw [if_neg (by simp; omega), ← hfp]
  rcases hcall : call_ollama_generate (oracle 0 (firstPrompt text n difficulty))
    with e | t
  · refine ⟨by simp, by simp, ?_⟩
    simp
  · dsimp only
    by_cases hz : procRecords (extract_json_from_response t) n [] = []
    · rw [if_pos ⟨by simp [hz], trivial⟩]
      rcases hcall2 : call_ollama_generate
          (oracle 1 (firstPrompt text n difficulty ++ RETRY_SUFFIX))
        with e2 | t2
      · refine ⟨by simp, by simp, ?_⟩
        constructor
        · intro _
          exact ⟨t, rfl, hz⟩
        · intro _
          exact ⟨⟨0, true, firstPrompt text n difficulty ++ RETRY_SUFFIX⟩, by simp, rfl⟩
      · rcases genLoop_no_retry_later oracle n difficulty rest 1 2
            (min 5 (max 1 (n / (c0 :: rest).length)))
            (procRecords (extract_json_from_response t2) n
              (procRecords (extract_json_from_response t) n []))
            ([] ++ [⟨0, false, firstPrompt text n difficulty⟩]
              ++ [⟨0, true, firstPrompt text n difficulty ++ RETRY_SUFFIX⟩])
            (by omega) with ⟨ext, hext, hf⟩
        rw [hext]
        refine ⟨?_, ?_, ?_⟩
        · rw [List.filter_append]
          have hfe : ext.filter (fun r => r.isRetry) = [] :=
            List.filter_eq_nil_iff.mpr (fun r hr => by simp [hf r hr])
          rw [hfe]
          simp
        · intro r hr hret
          rcases List.mem_append.mp hr with hr | hr
          · rcases List.mem_append.mp hr with hr | hr <;> simp at hr <;> simp [hr]
          · exact absurd hret (by simp [hf r hr])
        · constructor
          · intro _
            exact ⟨t, rfl, hz⟩
          · intro _
            refine ⟨⟨0, true, firstPrompt text n difficulty ++ RETRY_SUFFIX⟩, ?_, rfl⟩
            simp
    · rw [if_neg (fun hcond => hz (List.length_eq_zero.mp hcond.1))]
      rcases genLoop_no_retry_later oracle n difficulty rest 1 1
          (min 5 (max 1 (n / (c0 :: rest).length)))
          (procRecords (extract_json_from_response t) n [])
          ([] ++ [⟨0, false, firstPrompt text n difficulty⟩])
          (by omega) with ⟨ext, hext, hf⟩
      rw [hext]
      refine ⟨?_, ?_, ?_⟩
      · rw [List.filter_append]
        have hfe : ext.filter (fun r => r.isRetry) = [] :=
          List.filter_eq_nil_iff.mpr (fun r hr => by simp [hf r hr])
        rw [hfe]
        simp
      · intro r hr hret
        rcases List.mem_append.mp hr with hr | hr
        · simp at hr
          simp [hr]
        · exact absurd hret (by simp [hf r hr])
      · constructor
        · rintro ⟨r, hr, hret⟩
          exfalso
          rcases List.mem_append.mp hr with hr | hr
          · simp at hr
            rw [hr] at hret
            simp at hret
          · exact absurd hret (by simp [hf r hr])
        · rintro ⟨t2, ht2, hproc⟩
          exfalso
          injection ht2 with ht2e
          subst ht2e
          exact hz hproc

/-- A 200 transport body whose `response` text contains no JSON at all. -/
def NOJSON_BODY : List Char :=
  "\x7b\"response\": \"I cannot help with that\"\x7d".toList

/-- A generation service that always answers prose instead of JSON. -/
def oracleNoJson : Oracle := fun _ _ => .success 200 NOJSON_BODY

/-- Witness for C6 on a run whose first chunk yields nothing, forcing the
single retry. -/
theorem generate_retry_once_wit :
    (((generate_mcqs_from_text oracleNoJson "t".toList 1 "medium".toList).2.filter
        (fun r => r.isRetry)).length ≤ 1)
    ∧ (∀ r ∈ (generate_mcqs_from_text oracleNoJson "t".toList 1 "medium".toList).2,
        r.isRetry = true → r.chunkIdx = 0)
    ∧ ((∃ r ∈ (generate_mcqs_from_text oracleNoJson "t".toList 1 "medium".toList).2,
          r.isRetry = true) ↔
        ∃ t, call_ollama_generate (oracleNoJson 0
            (firstPrompt "t".toList 1 "medium".toList)) = .ok t
          ∧ procRecords (extract_json_from_response t) 1 [] = []) :=
  generate_retry_once oracleNoJson "t".toList 1 "medium".toList (by decide)

end MCQGen
